import Mathlib

/-!
Verification of the multi-line text-input core of `Reishandy_TextInput.js`
(class `Window_TextInput`): the line buffer, the caret, the width-constrained
character insertion (`processChar`), backspace (`processBackspace`), newline
(`processNewLine`), the four caret moves, the pointer-tap caret mapping
(`moveCursorToTouch`), the input reconciler (`processInputDifference`) and the
keydown handler.

Modelling conventions:
* A JS string is embedded as `List Char`; `s.slice(a, b)` becomes
  `take`/`drop` (with the helper `jsSlice` for the one call site whose start
  index can be negative, where JS counts from the end of the string).
* The caret row `_cursorY` is an `Int`, because `moveCursorToTouch` can
  assign a negative row to it (`Math.floor` of a negative coordinate).  The
  caret column `_cursorX` is a `Nat`: every assignment to it in the source is
  provably non-negative.  Where the JS code would throw a `TypeError`
  (reading a property of `this._lines[row]` for an out-of-range row), the
  embedding returns the state exactly as the aborted handler leaves it: all
  mutations performed before the throwing read are kept, later ones are not.
* Glyph metrics are a parameter `width : List Char → Nat` together with the
  available pixel width `maxW : Nat` (`contentsWidth() - padding * 2`) and
  the line height `lineH : Nat` (a fixed positive constant in the host).
  The float comparison `x < charStart + charWidth / 2` is embedded by
  doubling both sides, `2 * x < 2 * charStart + charWidth`, which is exact
  for integer-valued widths.
-/

/-- The mutable state of `Window_TextInput` that the editing operations touch:
`_maxLines`, `_lines`, `_cursorY` (row) and `_cursorX` (column). -/
structure TIState where
  maxLines : Nat
  lines : List (List Char)
  cursorY : Int
  cursorX : Nat
deriving Repr, DecidableEq

/-- The state set up by `Window_TextInput.initialize`: one empty line, caret at
`(0, 0)`. -/
def initState (maxLines : Nat) : TIState :=
  { maxLines := maxLines, lines := [[]], cursorY := 0, cursorX := 0 }

/-- `this._lines[this._cursorY]` as the JS read behaves: `none` when the row is
outside the array (the JS value `undefined`, whose use throws). -/
def getLine (st : TIState) : Option (List Char) :=
  if st.cursorY < 0 then none else st.lines[st.cursorY.toNat]?

/-- The line under the caret, defaulting to the empty line; used only to state
the caret-validity invariant. -/
def curLine (st : TIState) : List Char :=
  st.lines.getD st.cursorY.toNat []

/-- The invariant claimed by the spec: between 1 and `maxLines` lines, and the
caret `(row, col)` satisfies `0 ≤ row < lines.length` and
`0 ≤ col ≤ lines[row].length`. -/
def Valid (st : TIState) : Prop :=
  1 ≤ st.lines.length ∧ st.lines.length ≤ st.maxLines ∧
    0 ≤ st.cursorY ∧ st.cursorY < (st.lines.length : Int) ∧
    st.cursorX ≤ (curLine st).length

instance (st : TIState) : Decidable (Valid st) :=
  inferInstanceAs (Decidable (_ ∧ _ ∧ _ ∧ _ ∧ _))

/-- `Window_TextInput.inputText`: the lines joined by a newline character. -/
def inputText (st : TIState) : List Char :=
  List.intercalate ['\n'] st.lines

/-- The escaping applied on the character-insertion path:
`char === "\\" ? "\\\\" : char`. -/
def escapeChar (c : Char) : List Char :=
  if c = '\\' then ['\\', '\\'] else [c]

/-- A JS `slice` index: negative values count from the end of the string,
clamped to `[0, len]`. -/
def jsIndex (len : Nat) (i : Int) : Nat :=
  if i < 0 then ((len : Int) + i).toNat else min i.toNat len

/-- `s.slice(a, b)` of JS, for `Int` indices. -/
def jsSlice (s : List Char) (a b : Int) : List Char :=
  (s.take (jsIndex s.length b)).drop (jsIndex s.length a)

/-- The line-split block shared by `processChar`'s overflow branch and
`processNewLine`: the current line is cut at the caret, the part after the
caret becomes a new line at `row + 1`, and the caret moves to `(row + 1, 0)`. -/
def splitAtCaret (st : TIState) (line : List Char) : TIState :=
  { st with
    lines := (st.lines.set st.cursorY.toNat (line.take st.cursorX)).insertIdx
      (st.cursorY.toNat + 1) (line.drop st.cursorX)
    cursorY := st.cursorY + 1
    cursorX := 0 }

/-- `Window_TextInput.processChar`: escape the character, build the candidate
line; if its width exceeds the available width, split at the caret (when under
`maxLines`) and retry on the new line, else drop the character; otherwise
store the candidate line and advance the column by the inserted length. -/
def processChar (width : List Char → Nat) (maxW : Nat) (c : Char) (st : TIState) : TIState :=
  match h : getLine st with
  | none => st
  | some line =>
    let pc := escapeChar c
    let potentialLine := line.take st.cursorX ++ pc ++ line.drop st.cursorX
    if maxW < width potentialLine then
      if hroom : st.lines.length < st.maxLines then
        processChar width maxW c (splitAtCaret st line)
      else st
    else
      { st with lines := st.lines.set st.cursorY.toNat potentialLine,
                cursorX := st.cursorX + pc.length }
termination_by st.maxLines - st.lines.length
decreasing_by
  have hb : st.cursorY.toNat < st.lines.length := by
    unfold getLine at h
    split at h
    · exact absurd h (by simp)
    · exact (List.getElem?_eq_some.mp h).1
  have hlen : (splitAtCaret st line).lines.length = st.lines.length + 1 := by
    unfold splitAtCaret
    simp only
    rw [List.length_insertIdx]
    · simp
    · simp
      omega
  have hmax : (splitAtCaret st line).maxLines = st.maxLines := rfl
  omega

/-- The number of recursive self-calls `processChar` performs (its line-split
retries), with the same control flow as `processChar`. -/
def processCharDepth (width : List Char → Nat) (maxW : Nat) (c : Char) (st : TIState) : Nat :=
  match h : getLine st with
  | none => 0
  | some line =>
    let pc := escapeChar c
    let potentialLine := line.take st.cursorX ++ pc ++ line.drop st.cursorX
    if maxW < width potentialLine then
      if hroom : st.lines.length < st.maxLines then
        1 + processCharDepth width maxW c (splitAtCaret st line)
      else 0
    else 0
termination_by st.maxLines - st.lines.length
decreasing_by
  have hb : st.cursorY.toNat < st.lines.length := by
    unfold getLine at h
    split at h
    · exact absurd h (by simp)
    · exact (List.getElem?_eq_some.mp h).1
  have hlen : (splitAtCaret st line).lines.length = st.lines.length + 1 := by
    unfold splitAtCaret
    simp only
    rw [List.length_insertIdx]
    · simp
    · simp
      omega
  have hmax : (splitAtCaret st line).maxLines = st.maxLines := rfl
  omega

/-- `Window_TextInput.processBackspace`: inside a line, delete one character —
or, when the two characters left of the caret are an escaped backslash `\\`,
both of them; at column 0 of a later row, merge the row into the previous one;
at `(0, 0)`, do nothing. -/
def processBackspace (st : TIState) : TIState :=
  match getLine st with
  | none => st
  | some line =>
    if 0 < st.cursorX then
      if jsSlice line ((st.cursorX : Int) - 2) (st.cursorX : Int) = ['\\', '\\'] then
        { st with
          lines := st.lines.set st.cursorY.toNat
            (line.take (st.cursorX - 2) ++ line.drop st.cursorX)
          cursorX := st.cursorX - 2 }
      else
        { st with
          lines := st.lines.set st.cursorY.toNat
            (line.take (st.cursorX - 1) ++ line.drop st.cursorX)
          cursorX := st.cursorX - 1 }
    else if 0 < st.cursorY then
      match st.lines[(st.cursorY - 1).toNat]? with
      | some previousLine =>
        { st with
          cursorX := previousLine.length
          lines := (st.lines.set (st.cursorY - 1).toNat (previousLine ++ line)).eraseIdx
            st.cursorY.toNat
          cursorY := st.cursorY - 1 }
      | none => st
    else st

/-- `Window_TextInput.processNewLine`: a no-op at the line cap, otherwise a
split at the caret. -/
def processNewLine (st : TIState) : TIState :=
  if st.maxLines ≤ st.lines.length then st
  else
    match getLine st with
    | none => st
    | some line => splitAtCaret st line

/-- `Window_TextInput.moveCursorLeft`. -/
def moveCursorLeft (st : TIState) : TIState :=
  if 0 < st.cursorX then { st with cursorX := st.cursorX - 1 }
  else if 0 < st.cursorY then
    match st.lines[(st.cursorY - 1).toNat]? with
    | some prev => { st with cursorY := st.cursorY - 1, cursorX := prev.length }
    | none => { st with cursorY := st.cursorY - 1 }
  else st

/-- `Window_TextInput.moveCursorRight`. -/
def moveCursorRight (st : TIState) : TIState :=
  match getLine st with
  | none => st
  | some line =>
    if st.cursorX < line.length then { st with cursorX := st.cursorX + 1 }
    else if st.cursorY < (st.lines.length : Int) - 1 then
      { st with cursorY := st.cursorY + 1, cursorX := 0 }
    else st

/-- `Window_TextInput.moveCursorUp`. -/
def moveCursorUp (st : TIState) : TIState :=
  if 0 < st.cursorY then
    match st.lines[(st.cursorY - 1).toNat]? with
    | some prev => { st with cursorY := st.cursorY - 1, cursorX := min st.cursorX prev.length }
    | none => { st with cursorY := st.cursorY - 1 }
  else st

/-- `Window_TextInput.moveCursorDown`. -/
def moveCursorDown (st : TIState) : TIState :=
  if st.cursorY < (st.lines.length : Int) - 1 then
    match st.lines[(st.cursorY + 1).toNat]? with
    | some nxt => { st with cursorY := st.cursorY + 1, cursorX := min st.cursorX nxt.length }
    | none => { st with cursorY := st.cursorY + 1 }
  else st

/-- The character-scanning loop of `moveCursorToTouch`, started at index `i`:
returns the first index whose character's left half contains `x`, and the line
length when there is none.  The float comparison is embedded doubled. -/
def tapBestPos (width : List Char → Nat) (x : Int) (line : List Char) (i : Nat) : Nat :=
  if h : i < line.length then
    if 2 * x < 2 * (width (line.take i) : Int) + (width [line.get ⟨i, h⟩] : Int) then i
    else tapBestPos width x line (i + 1)
  else i
termination_by line.length - i

/-- The tapped row `Math.floor(y / lineHeight)` of `moveCursorToTouch`
(`touchedLine` in the source): floor division of the tap ordinate by the line
height. -/
def tapRow (lineH : Nat) (y : Int) : Int :=
  Int.fdiv y (lineH : Int)

/-- `Window_TextInput.moveCursorToTouch`: resolve the tapped row by integer
floor division, and within it the column by the half-character scan followed
by the `Math.max(0, bestPos - 1)` adjustment.  A negative resolved row is
assigned to the caret before the JS code throws on reading the line. -/
def moveCursorToTouch (width : List Char → Nat) (lineH : Nat) (x y : Int)
    (st : TIState) : TIState :=
  if tapRow lineH y < (st.lines.length : Int) then
    if 0 ≤ tapRow lineH y then
      match st.lines[(tapRow lineH y).toNat]? with
      | some line =>
        { st with cursorY := tapRow lineH y, cursorX := tapBestPos width x line 0 - 1 }
      | none => { st with cursorY := tapRow lineH y }
    else
      { st with cursorY := tapRow lineH y }
  else st

/-- The state the input reconciler works on: the buffer state together with
`_lastInputValue`, the last observed value of the HTML input element. -/
structure RState where
  ti : TIState
  last : List Char
deriving Repr, DecidableEq

/-- The insertion loop `for (const char of text) this.processChar(char)`. -/
def insertText (width : List Char → Nat) (maxW : Nat) (t : List Char) (st : TIState) : TIState :=
  t.foldl (fun s ch => processChar width maxW ch s) st

/-- `Window_TextInput.processInputDifference`, with the currently observed
element value passed explicitly: inserts the assumed appended suffix character
by character, or backspaces once per removed character, then records the
observed value. -/
def processInputDifference (width : List Char → Nat) (maxW : Nat) (rs : RState)
    (currentValue : List Char) : RState :=
  let previousValue := rs.last
  if previousValue.length < currentValue.length then
    { ti := insertText width maxW (currentValue.drop previousValue.length) rs.ti
      last := currentValue }
  else if currentValue.length < previousValue.length then
    { ti := Nat.iterate processBackspace (previousValue.length - currentValue.length) rs.ti
      last := currentValue }
  else
    { ti := rs.ti, last := currentValue }

/-- A whole sequence of reconciliation passes, one per observed value. -/
def runReconcile (width : List Char → Nat) (maxW : Nat) (rs : RState)
    (obs : List (List Char)) : RState :=
  obs.foldl (processInputDifference width maxW) rs

/-- How many `processChar` and `processBackspace` calls one reconciliation
pass issues, from the lengths of the previous and current observed values. -/
def passCounts (prevLen curLen : Nat) : Nat × Nat :=
  if prevLen < curLen then (curLen - prevLen, 0)
  else if curLen < prevLen then (0, prevLen - curLen)
  else (0, 0)

/-- Total insertion and deletion counts over a run of reconciliation passes,
given the initial `_lastInputValue` length and the observed value lengths. -/
def runCounts : Nat → List Nat → Nat × Nat
  | _, [] => (0, 0)
  | p, c :: rest =>
    let here := passCounts p c
    let later := runCounts c rest
    (here.1 + later.1, here.2 + later.2)

/-- The state the keydown handler works on: the buffer state,
`_lastInputValue`, and the HTML input element's value (the external
accumulator). -/
structure KState where
  ti : TIState
  last : List Char
  elemVal : List Char
deriving Repr, DecidableEq

/-- The keys the keydown handler intercepts. -/
inductive Key where
  | arrowLeft
  | arrowRight
  | arrowUp
  | arrowDown
  | backKey
  | enter
deriving Repr, DecidableEq

/-- The keydown handler `_boundHandleKeyDown`: arrows and Enter apply their
edit and clear both `_lastInputValue` and the element value; Backspace applies
the edit and sets `_lastInputValue` to the element's current value, which the
handler leaves unchanged. -/
def handleKeyDown (ks : KState) : Key → KState
  | Key.arrowLeft => { ti := moveCursorLeft ks.ti, last := [], elemVal := [] }
  | Key.arrowRight => { ti := moveCursorRight ks.ti, last := [], elemVal := [] }
  | Key.arrowUp => { ti := moveCursorUp ks.ti, last := [], elemVal := [] }
  | Key.arrowDown => { ti := moveCursorDown ks.ti, last := [], elemVal := [] }
  | Key.backKey => { ti := processBackspace ks.ti, last := ks.elemVal, elemVal := ks.elemVal }
  | Key.enter => { ti := processNewLine ks.ti, last := [], elemVal := [] }

/-- One editing operation on the buffer, as dispatched by the handlers. -/
inductive Op where
  | char (c : Char)
  | backKey
  | newline
  | left
  | right
  | up
  | down
  | tap (x y : Int)
deriving Repr, DecidableEq

/-- Apply one operation to the buffer state. -/
def applyOp (width : List Char → Nat) (maxW lineH : Nat) (st : TIState) : Op → TIState
  | Op.char c => processChar width maxW c st
  | Op.backKey => processBackspace st
  | Op.newline => processNewLine st
  | Op.left => moveCursorLeft st
  | Op.right => moveCursorRight st
  | Op.up => moveCursorUp st
  | Op.down => moveCursorDown st
  | Op.tap x y => moveCursorToTouch width lineH x y st

/-- Apply a sequence of operations in order. -/
def applyOps (width : List Char → Nat) (maxW lineH : Nat) (ops : List Op)
    (st : TIState) : TIState :=
  ops.foldl (applyOp width maxW lineH) st

/-- The restriction the counterexample to the literal claim forces: a tap
operation's `y` coordinate is non-negative (it does not land in the window's
top padding strip). -/
def TapNonNeg : Op → Prop
  | Op.tap _ y => 0 ≤ y
  | _ => True

instance : (op : Op) → Decidable (TapNonNeg op)
  | Op.char _ => isTrue trivial
  | Op.backKey => isTrue trivial
  | Op.newline => isTrue trivial
  | Op.left => isTrue trivial
  | Op.right => isTrue trivial
  | Op.up => isTrue trivial
  | Op.down => isTrue trivial
  | Op.tap x y => inferInstanceAs (Decidable (0 ≤ y))

theorem getLine_bounds {st : TIState} {line : List Char} (h : getLine st = some line) :
    0 ≤ st.cursorY ∧ st.cursorY.toNat < st.lines.length ∧
      st.lines[st.cursorY.toNat]? = some line := by
  unfold getLine at h
  split at h
  · exact absurd h (by simp)
  · refine ⟨by omega, ?_, h⟩
    exact (List.getElem?_eq_some.mp h).1

theorem length_splitAtCaret (st : TIState) (line : List Char)
    (h : st.cursorY.toNat < st.lines.length) :
    (splitAtCaret st line).lines.length = st.lines.length + 1 := by
  unfold splitAtCaret
  simp only
  rw [List.length_insertIdx]
  · simp
  · simp; omega

theorem processChar_eq (width : List Char → Nat) (maxW : Nat) (c : Char) (st : TIState) :
    processChar width maxW c st =
      match getLine st with
      | none => st
      | some line =>
        let pc := escapeChar c
        let potentialLine := line.take st.cursorX ++ pc ++ line.drop st.cursorX
        if maxW < width potentialLine then
          if st.lines.length < st.maxLines then
            processChar width maxW c (splitAtCaret st line)
          else st
        else
          { st with lines := st.lines.set st.cursorY.toNat potentialLine,
                    cursorX := st.cursorX + pc.length } := by
  rw [processChar]
  split <;> simp_all

theorem processCharDepth_eq (width : List Char → Nat) (maxW : Nat) (c : Char) (st : TIState) :
    processCharDepth width maxW c st =
      match getLine st with
      | none => 0
      | some line =>
        let pc := escapeChar c
        let potentialLine := line.take st.cursorX ++ pc ++ line.drop st.cursorX
        if maxW < width potentialLine then
          if st.lines.length < st.maxLines then
            1 + processCharDepth width maxW c (splitAtCaret st line)
          else 0
        else 0 := by
  rw [processCharDepth]
  split <;> simp_all

theorem tapBestPos_eq (width : List Char → Nat) (x : Int) (line : List Char) (i : Nat) :
    tapBestPos width x line i =
      if i < line.length then
        if 2 * x < 2 * (width (line.take i) : Int) + (width ((line.drop i).take 1) : Int) then i
        else tapBestPos width x line (i + 1)
      else i := by
  rw [tapBestPos]
  by_cases h : i < line.length
  · have hdt : (line.drop i).take 1 = [line.get ⟨i, h⟩] := by
      rw [List.drop_eq_getElem_cons h, List.take_succ_cons, List.take_zero]
      rfl
    simp [h, hdt]
  · simp [h]

theorem getD_eq_of_getElem? {l : List (List Char)} {i : Nat} {v : List Char}
    (h : l[i]? = some v) : l.getD i [] = v := by
  simp [List.getD_eq_getElem?_getD, h]

theorem valid_mk {st : TIState}
    (h1 : 1 ≤ st.lines.length) (h2 : st.lines.length ≤ st.maxLines)
    (h3 : 0 ≤ st.cursorY) (h4 : st.cursorY < (st.lines.length : Int))
    (h5 : st.cursorX ≤ (curLine st).length) : Valid st := ⟨h1, h2, h3, h4, h5⟩

theorem valid_getLine {st : TIState} (hv : Valid st) : getLine st = some (curLine st) := by
  obtain ⟨-, -, h3, h4, -⟩ := hv
  have hlt : st.cursorY.toNat < st.lines.length := by omega
  unfold getLine curLine
  rw [if_neg (by omega), List.getElem?_eq_getElem hlt, List.getD_eq_getElem?_getD,
    List.getElem?_eq_getElem hlt]
  rfl

theorem insertIdx_eq_take_cons {α : Type} (a : α) :
    ∀ (n : Nat) (l : List α), n ≤ l.length →
      l.insertIdx n a = l.take n ++ a :: l.drop n
  | 0, l, _ => by simp
  | n + 1, [], h => by simp at h
  | n + 1, x :: l, h => by
    simp only [List.insertIdx_succ_cons, List.take_succ_cons, List.drop_succ_cons,
      List.cons_append, List.cons.injEq, true_and]
    exact insertIdx_eq_take_cons a n l (by simpa using h)

theorem valid_moveCursorLeft {st : TIState} (hv : Valid st) : Valid (moveCursorLeft st) := by
  obtain ⟨h1, h2, h3, h4, h5⟩ := hv
  unfold moveCursorLeft
  split
  · exact valid_mk h1 h2 h3 h4 (by show st.cursorX - 1 ≤ (curLine st).length; omega)
  · split
    · rename_i hx hy
      have hlt : (st.cursorY - 1).toNat < st.lines.length := by omega
      rcases hget : st.lines[(st.cursorY - 1).toNat]? with - | prev
      · rw [List.getElem?_eq_getElem hlt] at hget
        exact absurd hget (by simp)
      · dsimp only
        refine valid_mk h1 h2 (by dsimp only; omega) (by dsimp only; omega) ?_
        show prev.length ≤ (st.lines.getD (st.cursorY - 1).toNat []).length
        rw [getD_eq_of_getElem? hget]
    · exact valid_mk h1 h2 h3 h4 h5

theorem valid_moveCursorRight {st : TIState} (hv : Valid st) : Valid (moveCursorRight st) := by
  have hg := valid_getLine hv
  obtain ⟨h1, h2, h3, h4, h5⟩ := hv
  unfold moveCursorRight
  rw [hg]
  dsimp only
  split
  · rename_i hxlt
    exact valid_mk h1 h2 h3 h4 (by show st.cursorX + 1 ≤ (curLine st).length; omega)
  · split
    · rename_i hy
      refine valid_mk h1 h2 (by dsimp only; omega) (by dsimp only; omega) ?_
      show 0 ≤ (curLine { st with cursorY := st.cursorY + 1, cursorX := 0 }).length
      omega
    · exact valid_mk h1 h2 h3 h4 h5

theorem valid_moveCursorUp {st : TIState} (hv : Valid st) : Valid (moveCursorUp st) := by
  obtain ⟨h1, h2, h3, h4, h5⟩ := hv
  unfold moveCursorUp
  split
  · rename_i hy
    have hlt : (st.cursorY - 1).toNat < st.lines.length := by omega
    rcases hget : st.lines[(st.cursorY - 1).toNat]? with - | prev
    · rw [List.getElem?_eq_getElem hlt] at hget
      exact absurd hget (by simp)
    · dsimp only
      refine valid_mk h1 h2 (by dsimp only; omega) (by dsimp only; omega) ?_
      show min st.cursorX prev.length ≤ (st.lines.getD (st.cursorY - 1).toNat []).length
      rw [getD_eq_of_getElem? hget]
      exact Nat.min_le_right _ _
  · exact valid_mk h1 h2 h3 h4 h5

theorem valid_moveCursorDown {st : TIState} (hv : Valid st) : Valid (moveCursorDown st) := by
  obtain ⟨h1, h2, h3, h4, h5⟩ := hv
  unfold moveCursorDown
  split
  · rename_i hy
    have hlt : (st.cursorY + 1).toNat < st.lines.length := by omega
    rcases hget : st.lines[(st.cursorY + 1).toNat]? with - | nxt
    · rw [List.getElem?_eq_getElem hlt] at hget
      exact absurd hget (by simp)
    · dsimp only
      refine valid_mk h1 h2 (by dsimp only; omega) (by dsimp only; omega) ?_
      show min st.cursorX nxt.length ≤ (st.lines.getD (st.cursorY + 1).toNat []).length
      rw [getD_eq_of_getElem? hget]
      exact Nat.min_le_right _ _
  · exact valid_mk h1 h2 h3 h4 h5

theorem valid_splitAtCaret {st : TIState} {line : List Char} (hv : Valid st)
    (hroom : st.lines.length < st.maxLines) : Valid (splitAtCaret st line) := by
  obtain ⟨h1, h2, h3, h4, h5⟩ := hv
  have hlt : st.cursorY.toNat < st.lines.length := by omega
  have hlen := length_splitAtCaret st line hlt
  have hm : (splitAtCaret st line).maxLines = st.maxLines := rfl
  have hy : (splitAtCaret st line).cursorY = st.cursorY + 1 := rfl
  have hx : (splitAtCaret st line).cursorX = 0 := rfl
  exact valid_mk (by omega) (by omega) (by omega) (by omega) (by omega)

theorem valid_processNewLine {st : TIState} (hv : Valid st) : Valid (processNewLine st) := by
  unfold processNewLine
  split
  · exact hv
  · rename_i hroom
    rw [valid_getLine hv]
    exact valid_splitAtCaret hv (by omega)

theorem valid_processBackspace {st : TIState} (hv : Valid st) : Valid (processBackspace st) := by
  have hg := valid_getLine hv
  obtain ⟨h1, h2, h3, h4, h5⟩ := hv
  have hlt : st.cursorY.toNat < st.lines.length := by omega
  unfold processBackspace
  rw [hg]
  dsimp only
  split
  · rename_i hx
    have hset : ∀ (v : List Char),
        (st.lines.set st.cursorY.toNat v).getD st.cursorY.toNat [] = v := by
      intro v
      exact getD_eq_of_getElem? (List.getElem?_set_self (by simpa using hlt))
    split
    · refine valid_mk (by simpa using h1) (by simpa using h2) h3 (by simpa using h4) ?_
      show st.cursorX - 2 ≤
        ((st.lines.set st.cursorY.toNat
          ((curLine st).take (st.cursorX - 2) ++ (curLine st).drop st.cursorX)).getD
            st.cursorY.toNat []).length
      rw [hset]
      simp only [List.length_append, List.length_take, List.length_drop]
      omega
    · refine valid_mk (by simpa using h1) (by simpa using h2) h3 (by simpa using h4) ?_
      show st.cursorX - 1 ≤
        ((st.lines.set st.cursorY.toNat
          ((curLine st).take (st.cursorX - 1) ++ (curLine st).drop st.cursorX)).getD
            st.cursorY.toNat []).length
      rw [hset]
      simp only [List.length_append, List.length_take, List.length_drop]
      omega
  · split
    · rename_i hx hy
      have hprevlt : (st.cursorY - 1).toNat < st.lines.length := by omega
      rcases hget : st.lines[(st.cursorY - 1).toNat]? with - | prev
      · rw [List.getElem?_eq_getElem hprevlt] at hget
        exact absurd hget (by simp)
      · dsimp only
        have hlenset : (st.lines.set (st.cursorY - 1).toNat (prev ++ curLine st)).length =
            st.lines.length := by simp
        have hlenerase :
            ((st.lines.set (st.cursorY - 1).toNat (prev ++ curLine st)).eraseIdx
              st.cursorY.toNat).length = st.lines.length - 1 := by
          rw [List.length_eraseIdx_of_lt (by omega)]
          omega
        refine valid_mk (by dsimp only; omega) (by dsimp only; omega) (by dsimp only; omega)
          (by dsimp only; omega) ?_
        show prev.length ≤
          (((st.lines.set (st.cursorY - 1).toNat (prev ++ curLine st)).eraseIdx
            st.cursorY.toNat).getD (st.cursorY - 1).toNat []).length
        have hgete :
            ((st.lines.set (st.cursorY - 1).toNat (prev ++ curLine st)).eraseIdx
              st.cursorY.toNat)[(st.cursorY - 1).toNat]? =
              some (prev ++ curLine st) := by
          rw [List.getElem?_eraseIdx_of_lt _ _ _ (by omega)]
          exact List.getElem?_set_self (by omega)
        rw [getD_eq_of_getElem? hgete]
        simp
    · exact valid_mk h1 h2 h3 h4 h5

theorem valid_processChar_aux (width : List Char → Nat) (maxW : Nat) (c : Char) :
    ∀ (n : Nat) (st : TIState), st.maxLines - st.lines.length ≤ n → Valid st →
      Valid (processChar width maxW c st) := by
  intro n
  induction n with
  | zero =>
    intro st hn hv
    rw [processChar_eq, valid_getLine hv]
    dsimp only
    split
    · split
      · rename_i hroom
        omega
      · exact hv
    · obtain ⟨h1, h2, h3, h4, h5⟩ := hv
      have hlt : st.cursorY.toNat < st.lines.length := by omega
      refine valid_mk (by simpa using h1) (by simpa using h2) h3 (by simpa using h4) ?_
      show st.cursorX + (escapeChar c).length ≤
        ((st.lines.set st.cursorY.toNat
          ((curLine st).take st.cursorX ++ escapeChar c ++ (curLine st).drop st.cursorX)).getD
            st.cursorY.toNat []).length
      rw [getD_eq_of_getElem? (List.getElem?_set_self (by simpa using hlt))]
      simp only [List.length_append, List.length_take, List.length_drop]
      omega
  | succ n ih =>
    intro st hn hv
    rw [processChar_eq, valid_getLine hv]
    dsimp only
    split
    · split
      · rename_i hroom
        have hlt : st.cursorY.toNat < st.lines.length := by
          obtain ⟨-, -, h3, h4, -⟩ := hv
          omega
        have hlen := length_splitAtCaret st (curLine st) hlt
        refine ih (splitAtCaret st (curLine st)) ?_ (valid_splitAtCaret hv hroom)
        have hm : (splitAtCaret st (curLine st)).maxLines = st.maxLines := rfl
        omega
      · exact hv
    · obtain ⟨h1, h2, h3, h4, h5⟩ := hv
      have hlt : st.cursorY.toNat < st.lines.length := by omega
      refine valid_mk (by simpa using h1) (by simpa using h2) h3 (by simpa using h4) ?_
      show st.cursorX + (escapeChar c).length ≤
        ((st.lines.set st.cursorY.toNat
          ((curLine st).take st.cursorX ++ escapeChar c ++ (curLine st).drop st.cursorX)).getD
            st.cursorY.toNat []).length
      rw [getD_eq_of_getElem? (List.getElem?_set_self (by simpa using hlt))]
      simp only [List.length_append, List.length_take, List.length_drop]
      omega

theorem valid_processChar {width : List Char → Nat} {maxW : Nat} {c : Char} {st : TIState}
    (hv : Valid st) : Valid (processChar width maxW c st) :=
  valid_processChar_aux width maxW c (st.maxLines - st.lines.length) st le_rfl hv

theorem tapBestPos_le_aux (width : List Char → Nat) (x : Int) (line : List Char) :
    ∀ (k i : Nat), line.length - i ≤ k → tapBestPos width x line i ≤ max i line.length := by
  intro k
  induction k with
  | zero =>
    intro i hk
    rw [tapBestPos_eq]
    split
    · omega
    · omega
  | succ k ih =>
    intro i hk
    rw [tapBestPos_eq]
    split
    · split
      · omega
      · have := ih (i + 1) (by omega)
        omega
    · omega

theorem tapBestPos_le (width : List Char → Nat) (x : Int) (line : List Char) :
    tapBestPos width x line 0 ≤ line.length := by
  have := tapBestPos_le_aux width x line line.length 0 (by omega)
  omega

theorem valid_moveCursorToTouch {width : List Char → Nat} {lineH : Nat} {x y : Int}
    {st : TIState} (hv : Valid st) (hy : 0 ≤ y) :
    Valid (moveCursorToTouch width lineH x y st) := by
  obtain ⟨h1, h2, h3, h4, h5⟩ := hv
  have htl : 0 ≤ tapRow lineH y := Int.fdiv_nonneg hy (by omega)
  unfold moveCursorToTouch
  by_cases hlt2 : tapRow lineH y < (st.lines.length : Int)
  · rw [if_pos hlt2, if_pos htl]
    have hnat : (tapRow lineH y).toNat < st.lines.length := by omega
    rcases hget : st.lines[(tapRow lineH y).toNat]? with - | line
    · rw [List.getElem?_eq_getElem hnat] at hget
      exact absurd hget (by simp)
    · refine valid_mk h1 h2 (by dsimp only; omega) (by dsimp only; omega) ?_
      show tapBestPos width x line 0 - 1 ≤
        (st.lines.getD (tapRow lineH y).toNat []).length
      rw [getD_eq_of_getElem? hget]
      have := tapBestPos_le width x line
      omega
  · rw [if_neg hlt2]
    exact valid_mk h1 h2 h3 h4 h5

theorem valid_applyOp {width : List Char → Nat} {maxW lineH : Nat} {op : Op} {st : TIState}
    (hv : Valid st) (hop : TapNonNeg op) : Valid (applyOp width maxW lineH st op) := by
  cases op with
  | char c => exact valid_processChar hv
  | backKey => exact valid_processBackspace hv
  | newline => exact valid_processNewLine hv
  | left => exact valid_moveCursorLeft hv
  | right => exact valid_moveCursorRight hv
  | up => exact valid_moveCursorUp hv
  | down => exact valid_moveCursorDown hv
  | tap x y => exact valid_moveCursorToTouch hv hop

theorem valid_applyOps {width : List Char → Nat} {maxW lineH : Nat} :
    ∀ (ops : List Op) (st : TIState), Valid st → (∀ op ∈ ops, TapNonNeg op) →
      Valid (applyOps width maxW lineH ops st)
  | [], _, hv, _ => hv
  | op :: ops, st, hv, hops => by
    have h1 : TapNonNeg op := hops op (List.mem_cons_self op ops)
    have h2 : ∀ o ∈ ops, TapNonNeg o := fun o ho => hops o (List.mem_cons_of_mem _ ho)
    rw [applyOps, List.foldl_cons]
    exact valid_applyOps ops _ (valid_applyOp hv h1) h2

theorem valid_initState {m : Nat} (hm : 1 ≤ m) : Valid (initState m) := by
  refine ⟨by simp [initState], by simp [initState, hm], by simp [initState], ?_, ?_⟩
  · show (0 : Int) < ((initState m).lines.length : Int)
    simp [initState]
  · show (initState m).cursorX ≤ (curLine (initState m)).length
    simp [initState, curLine]

/-- C1 (amended): starting from the freshly initialized editor, after every
sequence of operations — character insertion, backspace, enter, the four caret
moves, and pointer-tap caret mapping, the taps restricted to non-negative `y`
(not in the window's top padding strip) — the buffer holds between 1 and
`maxLines` lines and the caret satisfies `0 ≤ row < lines.length` and
`0 ≤ col ≤ lines[row].length`.  Because the operation sequence is universally
quantified, this covers the state after each intermediate operation as well. -/
theorem c1_invariant_all_ops (width : List Char → Nat) (maxW lineH maxLines : Nat)
    (hm : 1 ≤ maxLines) (ops : List Op) (hops : ∀ op ∈ ops, TapNonNeg op) :
    Valid (applyOps width maxW lineH ops (initState maxLines)) :=
  valid_applyOps ops (initState maxLines) (valid_initState hm) hops

/-- Witness for C1's amended theorem at a concrete run: five operations on a
3-line editor with a 10-pixels-per-character font. -/
theorem c1_invariant_all_ops_witness :
    1 ≤ 3 ∧
      Valid (applyOps (fun s => 10 * s.length) 100 36
        [Op.char 'a', Op.newline, Op.tap 0 0, Op.backKey, Op.left] (initState 3)) :=
  ⟨by omega,
    c1_invariant_all_ops (fun s => 10 * s.length) 100 36 3 (by omega)
      [Op.char 'a', Op.newline, Op.tap 0 0, Op.backKey, Op.left] (by decide)⟩

/-- C1 counterexample to the literal claim: a single pointer tap whose content
ordinate is negative — as produced by tapping the window's top padding strip,
where `touchY = TouchInput.y - this.y - this.padding < 0` — resolves to row
`-1`; the code assigns it to the caret row and then throws reading
`this._lines[-1]`, leaving the caret invalid. -/
theorem c1_counterexample :
    ¬ Valid (applyOps (fun s => 10 * s.length) 100 36 [Op.tap 0 (-1)] (initState 3)) := by
  decide

theorem set_eq_self_of_getElem? {α : Type} :
    ∀ {l : List α} {i : Nat} {v : α}, l[i]? = some v → l.set i v = l
  | [], i, v, h => by simp at h
  | a :: l, 0, v, h => by
    simp only [List.getElem?_cons_zero, Option.some.injEq] at h
    simp [h]
  | a :: l, i + 1, v, h => by
    simp only [List.getElem?_cons_succ] at h
    simp [set_eq_self_of_getElem? h]

/-- C10: when the buffer already holds exactly `maxLines` lines at the moment
`processChar` is called and the candidate line (the current line with the
escaped character inserted at the caret) exceeds the available width, the
whole state — lines, caret row and caret column — is returned unchanged: the
dropped character leaves the state untouched. -/
theorem c10_drop_at_cap (width : List Char → Nat) (maxW : Nat) (c : Char) (st : TIState)
    (line : List Char) (hline : getLine st = some line)
    (hcap : st.lines.length = st.maxLines)
    (hover : maxW < width (line.take st.cursorX ++ escapeChar c ++ line.drop st.cursorX)) :
    processChar width maxW c st = st := by
  rw [processChar_eq, hline]
  dsimp only
  rw [if_pos hover, if_neg (by omega)]

/-- Witness for C10: a full 1-line buffer whose line `"a"` is at the 10-pixel
width cap; inserting `'b'` leaves the state untouched. -/
theorem c10_drop_at_cap_witness :
    getLine ⟨1, [['a']], 0, 1⟩ = some ['a'] ∧
      (⟨1, [['a']], 0, 1⟩ : TIState).lines.length = (⟨1, [['a']], 0, 1⟩ : TIState).maxLines ∧
      (10 : Nat) < (fun s : List Char => 10 * s.length)
        (['a'].take 1 ++ escapeChar 'b' ++ ['a'].drop 1) ∧
      processChar (fun s => 10 * s.length) 10 'b' ⟨1, [['a']], 0, 1⟩ = ⟨1, [['a']], 0, 1⟩ :=
  ⟨by decide, by decide, by decide,
    c10_drop_at_cap (fun s => 10 * s.length) 10 'b' ⟨1, [['a']], 0, 1⟩ ['a']
      (by decide) (by decide) (by decide)⟩

/-- C9: with the backslash escaping of the character path, inserting a single
literal backslash into an empty line (caret at its column 0) makes the line
`\\` (two characters) with the caret advanced by 2, and one subsequent
backspace removes both characters as one atomic unit, restoring the state
exactly — in particular the empty line and caret column 0. -/
theorem c9_backslash_roundtrip (width : List Char → Nat) (maxW : Nat) (st : TIState)
    (hline : getLine st = some []) (hx : st.cursorX = 0)
    (hfit : width ['\\', '\\'] ≤ maxW) :
    (processChar width maxW '\\' st).lines[st.cursorY.toNat]? = some ['\\', '\\'] ∧
      (processChar width maxW '\\' st).cursorX = 2 ∧
      processBackspace (processChar width maxW '\\' st) = st := by
  have hb := getLine_bounds hline
  have hstep : processChar width maxW '\\' st =
      { st with lines := st.lines.set st.cursorY.toNat ['\\', '\\'],
                cursorX := st.cursorX + 2 } := by
    rw [processChar_eq, hline]
    dsimp only
    rw [if_neg (by simp [escapeChar, hx]; omega)]
    simp [escapeChar, hx]
  rw [hstep]
  refine ⟨?_, by simp [hx], ?_⟩
  · show (st.lines.set st.cursorY.toNat ['\\', '\\'])[st.cursorY.toNat]? = some ['\\', '\\']
    exact List.getElem?_set_self (by simpa using hb.2.1)
  · unfold processBackspace
    have hget2 :
        getLine
          { st with
            lines := st.lines.set st.cursorY.toNat ['\\', '\\']
            cursorX := st.cursorX + 2 } = some ['\\', '\\'] := by
      unfold getLine
      dsimp only
      rw [if_neg (by omega)]
      exact List.getElem?_set_self (by simpa using hb.2.1)
    rw [hget2]
    dsimp only
    rw [if_pos (by omega), if_pos (by simp [hx, jsSlice, jsIndex])]
    have hsets : (st.lines.set st.cursorY.toNat ['\\', '\\']).set st.cursorY.toNat [] =
        st.lines := by
      rw [List.set_set]
      exact set_eq_self_of_getElem? (by simpa using hb.2.2)
    cases st with
    | mk m ls y x =>
      dsimp only at hsets hx ⊢
      subst hx
      simp [hsets]

/-- Witness for C9: on a fresh 3-line editor with a 10-pixels-per-character
font and 100 pixels available, inserting `\` and then backspacing restores
the initial state. -/
theorem c9_backslash_roundtrip_witness :
    getLine (initState 3) = some [] ∧ (initState 3).cursorX = 0 ∧
      (fun s : List Char => 10 * s.length) ['\\', '\\'] ≤ 100 ∧
      processBackspace (processChar (fun s => 10 * s.length) 100 '\\' (initState 3)) =
        initState 3 :=
  ⟨by decide, by decide, by decide,
    (c9_backslash_roundtrip (fun s => 10 * s.length) 100 (initState 3)
      (by decide) (by decide) (by decide)).2.2⟩

theorem insertIdx_getElem?_self {α : Type} {l : List α} {n : Nat} {a : α} (h : n ≤ l.length) :
    (l.insertIdx n a)[n]? = some a := by
  rw [insertIdx_eq_take_cons a n l h]
  rw [List.getElem?_append_right (by simp [List.length_take])]
  simp [List.length_take, Nat.min_eq_left h]

theorem insertIdx_getElem?_lt {α : Type} {l : List α} {n k : Nat} {a : α} (hn : n ≤ l.length)
    (hk : k < n) : (l.insertIdx n a)[k]? = l[k]? := by
  rw [insertIdx_eq_take_cons a n l hn]
  rw [List.getElem?_append_left (by simp [List.length_take]; omega)]
  rw [List.getElem?_take_of_lt hk]

theorem set_insertIdx_same {α : Type} (a b : α) :
    ∀ (n : Nat) (l : List α), n ≤ l.length → (l.insertIdx n a).set n b = l.insertIdx n b
  | 0, l, _ => by simp
  | n + 1, [], h => by simp at h
  | n + 1, x :: l, h => by
    simp only [List.insertIdx_succ_cons, List.set_cons_succ]
    exact congrArg (x :: ·) (set_insertIdx_same a b n l (by simpa using h))

/-- C7 (amended): with the caret at the end of a line that is exactly at
width capacity (it fits, one more character does not), the buffer below
`maxLines`, and a non-backslash character whose own width fits on an empty
line, `processChar` produces exactly one split: the original line stays at
the caret row, the new character becomes the single character of a new line
at `row + 1`, so the two lines concatenate to the original content plus the
new character. -/
theorem c7_wrap_at_capacity (width : List Char → Nat) (maxW : Nat) (c : Char) (st : TIState)
    (line : List Char) (hline : getLine st = some line) (hx : st.cursorX = line.length)
    (hc : c ≠ '\\') (hover : maxW < width (line ++ [c])) (hfit : width [c] ≤ maxW)
    (hroom : st.lines.length < st.maxLines) :
    processChar width maxW c st =
      { st with
        lines := st.lines.insertIdx (st.cursorY.toNat + 1) [c]
        cursorY := st.cursorY + 1
        cursorX := 1 } ∧
      (st.lines.insertIdx (st.cursorY.toNat + 1) [c])[st.cursorY.toNat]? = some line ∧
      (st.lines.insertIdx (st.cursorY.toNat + 1) [c])[st.cursorY.toNat + 1]? = some [c] ∧
      (st.lines.insertIdx (st.cursorY.toNat + 1) [c]).length = st.lines.length + 1 := by
  have hb := getLine_bounds hline
  have hesc : escapeChar c = [c] := by simp [escapeChar, hc]
  have hpot : line.take st.cursorX ++ escapeChar c ++ line.drop st.cursorX = line ++ [c] := by
    rw [hx, hesc, List.take_length, List.drop_length, List.append_nil]
  have hsplit : splitAtCaret st line =
      { st with
        lines := st.lines.insertIdx (st.cursorY.toNat + 1) []
        cursorY := st.cursorY + 1
        cursorX := 0 } := by
    unfold splitAtCaret
    rw [hx, List.take_length, List.drop_length, set_eq_self_of_getElem? hb.2.2]
  have hstep1 : processChar width maxW c st = processChar width maxW c (splitAtCaret st line) := by
    rw [processChar_eq, hline]
    dsimp only
    rw [hpot, if_pos hover, if_pos hroom]
  have hget1 : getLine (splitAtCaret st line) = some [] := by
    rw [hsplit]
    unfold getLine
    dsimp only
    rw [if_neg (by omega)]
    have htn : (st.cursorY + 1).toNat = st.cursorY.toNat + 1 := by omega
    rw [htn]
    exact insertIdx_getElem?_self (by omega)
  have hstep2 : processChar width maxW c (splitAtCaret st line) =
      { st with
        lines := st.lines.insertIdx (st.cursorY.toNat + 1) [c]
        cursorY := st.cursorY + 1
        cursorX := 1 } := by
    rw [processChar_eq, hget1, hsplit]
    dsimp only
    rw [hesc]
    simp only [List.take_nil, List.drop_nil, List.nil_append, List.append_nil]
    rw [if_neg (by omega)]
    have htn : (st.cursorY + 1).toNat = st.cursorY.toNat + 1 := by omega
    rw [htn, set_insertIdx_same _ _ _ _ (by omega)]
    simp
  refine ⟨hstep1.trans hstep2, ?_, ?_, ?_⟩
  · rw [insertIdx_getElem?_lt (by omega) (by omega)]
    exact hb.2.2
  · exact insertIdx_getElem?_self (by omega)
  · rw [List.length_insertIdx _ _ (by omega)]

/-- Witness for C7's amended theorem: a 3-line editor, 10 pixels per
character, 10 pixels available, line `"a"` at capacity, caret at its end;
inserting `'b'` yields the two lines `"a"` and `"b"`. -/
theorem c7_wrap_at_capacity_witness :
    getLine ⟨3, [['a']], 0, 1⟩ = some ['a'] ∧
      (10 : Nat) < (fun s : List Char => 10 * s.length) (['a'] ++ ['b']) ∧
      processChar (fun s => 10 * s.length) 10 'b' ⟨3, [['a']], 0, 1⟩ = ⟨3, [['a'], ['b']], 1, 1⟩ :=
  ⟨by decide, by decide, by
    have h := (c7_wrap_at_capacity (fun s => 10 * s.length) 10 'b' ⟨3, [['a']], 0, 1⟩ ['a']
      (by decide) (by decide) (by decide) (by decide) (by decide) (by decide)).1
    rw [h]
    decide⟩

/-- C7 counterexample to the literal claim: the same at-capacity line `"a"`
(10 pixels, 10 available) with the buffer below `maxLines = 3`, but the caret
at column 0: inserting `'b'` splits twice and then drops the character,
producing three lines whose concatenation is only `"a"` — not two lines
concatenating to `"ab"`. -/
theorem c7_counterexample :
    (processChar (fun s => 10 * s.length) 10 'b' ⟨3, [['a']], 0, 0⟩).lines = [[], [], ['a']] ∧
      (processChar (fun s => 10 * s.length) 10 'b' ⟨3, [['a']], 0, 0⟩).lines.length ≠ 2 := by
  have h : (processChar (fun s => 10 * s.length) 10 'b' ⟨3, [['a']], 0, 0⟩).lines =
      [[], [], ['a']] := by
    simp [processChar_eq, getLine, escapeChar, splitAtCaret]
  exact ⟨h, by rw [h]; decide⟩

theorem insertText_no_overflow (width : List Char → Nat) (maxW : Nat) :
    ∀ (rest p : List Char) (m : Nat), '\\' ∉ rest →
      (∀ i, i ≤ rest.length → width (p ++ rest.take i) ≤ maxW) →
      insertText width maxW rest ⟨m, [p], 0, p.length⟩ = ⟨m, [p ++ rest], 0, (p ++ rest).length⟩
  | [], p, m, _, _ => by simp [insertText]
  | ch :: rest, p, m, hnb, hw => by
    have hch : ch ≠ '\\' := by
      intro h
      exact hnb (h ▸ List.mem_cons_self ch rest)
    have hstep : processChar width maxW ch ⟨m, [p], 0, p.length⟩ =
        ⟨m, [p ++ [ch]], 0, p.length + 1⟩ := by
      rw [processChar_eq]
      have hg : getLine ⟨m, [p], 0, p.length⟩ = some p := by
        unfold getLine
        simp
      rw [hg]
      dsimp only
      have hesc : escapeChar ch = [ch] := by simp [escapeChar, hch]
      rw [hesc, List.take_length, List.drop_length, List.append_nil]
      rw [if_neg (by have := hw 1 (by simp); simpa using this)]
      simp
    have hrec := insertText_no_overflow width maxW rest (p ++ [ch]) m
      (fun h => hnb (List.mem_cons_of_mem ch h))
      (by
        intro i hi
        have := hw (i + 1) (by simpa using hi)
        simpa [List.append_assoc] using this)
    rw [insertText, List.foldl_cons, ← insertText, hstep]
    have hx : (p ++ [ch]).length = p.length + 1 := by simp
    rw [hx] at hrec
    rw [hrec]
    simp

/-- C8 (amended): starting from the initial empty buffer, inserting the
characters of `t` one by one through `processChar`, where `t` contains no
backslash and no prefix of it exceeds the available width (so no insertion
overflows), leaves exactly one line equal to `t`, the caret at its end, and
`inputText` returns exactly `t`. -/
theorem c8_roundtrip_no_overflow (width : List Char → Nat) (maxW m : Nat) (t : List Char)
    (hnb : '\\' ∉ t) (hw : ∀ i, i ≤ t.length → width (t.take i) ≤ maxW) :
    insertText width maxW t (initState m) = ⟨m, [t], 0, t.length⟩ ∧
      inputText (insertText width maxW t (initState m)) = t := by
  have h := insertText_no_overflow width maxW t [] m hnb (by simpa using hw)
  have hinit : initState m = ⟨m, [[]], 0, ([] : List Char).length⟩ := rfl
  rw [hinit, h]
  refine ⟨by simp, ?_⟩
  simp [inputText, List.intercalate]

/-- Witness for C8's amended theorem: typing `"hi"` with 1-pixel characters
and 100 pixels available yields the single line `"hi"`. -/
theorem c8_roundtrip_no_overflow_witness :
    ('\\' ∉ ['h', 'i']) ∧
      inputText (insertText (fun s => s.length) 100 ['h', 'i'] (initState 5)) = ['h', 'i'] :=
  ⟨by decide,
    (c8_roundtrip_no_overflow (fun s => s.length) 100 5 ['h', 'i'] (by decide)
      (by
        intro i hi
        show (List.take i ['h', 'i']).length ≤ 100
        have h2 : (['h', 'i'] : List Char).length = 2 := rfl
        have := List.length_take_le i ['h', 'i']
        omega)).2⟩

/-- C8 counterexample to the literal claim: the single-character insertion
sequence with total text `"\"` (one backslash, no width overflow: every
prefix is at most 2 pixels wide with 100 available) produces the line `"\\"`
(two characters), so `getFullText` returns `"\\"` and not the total text
`"\"`. -/
theorem c8_counterexample :
    inputText (insertText (fun s => s.length) 100 ['\\'] (initState 3)) = ['\\', '\\'] ∧
      (['\\', '\\'] : List Char) ≠ ['\\'] := by
  refine ⟨?_, by decide⟩
  have h1 : insertText (fun s : List Char => s.length) 100 ['\\'] (initState 3) =
      ⟨3, [['\\', '\\']], 0, 2⟩ := by
    rw [insertText, List.foldl_cons, List.foldl_nil, processChar_eq]
    have hg : getLine (initState 3) = some [] := by decide
    rw [hg]
    dsimp only
    rw [if_neg (by decide)]
    decide
  rw [h1]
  simp [inputText, List.intercalate]

theorem processCharDepth_le_aux (width : List Char → Nat) (maxW : Nat) (c : Char) :
    ∀ (n : Nat) (st : TIState), st.maxLines - st.lines.length ≤ n →
      processCharDepth width maxW c st ≤ st.maxLines - st.lines.length := by
  intro n
  induction n with
  | zero =>
    intro st hn
    rw [processCharDepth_eq]
    rcases hg : getLine st with - | line
    · dsimp only
      omega
    · dsimp only
      split
      · split
        · rename_i hroom
          omega
        · omega
      · omega
  | succ n ih =>
    intro st hn
    rw [processCharDepth_eq]
    rcases hg : getLine st with - | line
    · dsimp only
      omega
    · dsimp only
      split
      · split
        · rename_i hroom
          have hb := getLine_bounds hg
          have hlen := length_splitAtCaret st line hb.2.1
          have hm : (splitAtCaret st line).maxLines = st.maxLines := rfl
          have hstep : (splitAtCaret st line).maxLines - (splitAtCaret st line).lines.length =
              st.maxLines - (st.lines.length + 1) := by rw [hm, hlen]
          have hrec := ih (splitAtCaret st line) (by rw [hstep]; omega)
          rw [hstep] at hrec
          show 1 + processCharDepth width maxW c (splitAtCaret st line) ≤
            st.maxLines - st.lines.length
          omega
        · omega
      · omega

/-- C4 (amended): the line-split retry recursion of `processChar` is bounded —
it recurses at most `maxLines - lines.length` times, so it terminates; the
bound `1` of the literal claim holds only in special positions (for example,
the caret at end of line with a character that fits on an empty line, as in
C7), not in general. -/
theorem c4_recursion_bound (width : List Char → Nat) (maxW : Nat) (c : Char) (st : TIState) :
    processCharDepth width maxW c st ≤ st.maxLines - st.lines.length :=
  processCharDepth_le_aux width maxW c (st.maxLines - st.lines.length) st le_rfl

/-- C4 counterexample to the literal claim: a 10-pixel-wide window, line `"a"`
exactly at capacity, caret at column 0, `maxLines = 3`: inserting `'b'`
overflows, splits, retries on the new current line `"a"` (which is not empty —
the claimed "empty insertion point" is only the caret position), overflows
again and splits again: recursion depth 2, not at most 1. -/
theorem c4_counterexample :
    ¬ processCharDepth (fun s => 10 * s.length) 10 'b' ⟨3, [['a']], 0, 0⟩ ≤ 1 := by
  have h : processCharDepth (fun s => 10 * s.length) 10 'b' ⟨3, [['a']], 0, 0⟩ = 2 := by
    simp [processCharDepth_eq, getLine, escapeChar, splitAtCaret]
  rw [h]
  decide

/-- C6 (amended): `processBackspace` behaves as the claim states, except that
when the two characters immediately left of the caret are an escaped
backslash pair `\\`, both characters are removed together and the column
decreases by 2.  In full: with `line` the caret row's line, (i) at a positive
column whose two preceding characters are not `\\`: exactly one character
left of the caret is removed (the line shortens by one) and the column
decreases by 1; (ii) at a positive column preceded by `\\`: those two
characters are removed and the column decreases by 2; (iii) at column 0 of a
positive row: the current line is appended to the previous line, the column
becomes the previous line's original length, and the row count shrinks by
one; (iv) at `(0, 0)`: the state is unchanged, so repeating it there is
idempotent. -/
theorem c6_deleteLeft_cases (st : TIState) (line : List Char)
    (hline : getLine st = some line) (hcol : st.cursorX ≤ line.length) :
    (0 < st.cursorX →
      jsSlice line ((st.cursorX : Int) - 2) (st.cursorX : Int) ≠ ['\\', '\\'] →
      processBackspace st =
        { st with
          lines := st.lines.set st.cursorY.toNat
            (line.take (st.cursorX - 1) ++ line.drop st.cursorX)
          cursorX := st.cursorX - 1 } ∧
        (line.take (st.cursorX - 1) ++ line.drop st.cursorX).length = line.length - 1) ∧
    (0 < st.cursorX →
      jsSlice line ((st.cursorX : Int) - 2) (st.cursorX : Int) = ['\\', '\\'] →
      processBackspace st =
        { st with
          lines := st.lines.set st.cursorY.toNat
            (line.take (st.cursorX - 2) ++ line.drop st.cursorX)
          cursorX := st.cursorX - 2 } ∧
        (line.take (st.cursorX - 2) ++ line.drop st.cursorX).length = line.length - 2) ∧
    (st.cursorX = 0 → 0 < st.cursorY →
      processBackspace st =
        { st with
          cursorX := (st.lines.getD (st.cursorY - 1).toNat []).length
          lines := (st.lines.set (st.cursorY - 1).toNat
            (st.lines.getD (st.cursorY - 1).toNat [] ++ line)).eraseIdx st.cursorY.toNat
          cursorY := st.cursorY - 1 } ∧
        (processBackspace st).lines.length = st.lines.length - 1) ∧
    (st.cursorX = 0 → st.cursorY = 0 → processBackspace st = st) := by
  have hb := getLine_bounds hline
  refine ⟨?_, ?_, ?_, ?_⟩
  · intro hx hesc
    have heq : processBackspace st =
        { st with
          lines := st.lines.set st.cursorY.toNat
            (line.take (st.cursorX - 1) ++ line.drop st.cursorX)
          cursorX := st.cursorX - 1 } := by
      unfold processBackspace
      rw [hline]
      dsimp only
      rw [if_pos hx, if_neg hesc]
    refine ⟨heq, ?_⟩
    simp only [List.length_append, List.length_take, List.length_drop]
    omega
  · intro hx hesc
    have hx2 : 2 ≤ st.cursorX := by
      by_contra hlt
      have hx1 : st.cursorX = 1 := by omega
      have hidx : jsIndex line.length (st.cursorX : Int) ≤ 1 := by
        unfold jsIndex
        rw [hx1, if_neg (by omega)]
        simp
      have hlen1 : (jsSlice line ((st.cursorX : Int) - 2) (st.cursorX : Int)).length ≤ 1 := by
        unfold jsSlice
        simp only [List.length_drop, List.length_take]
        omega
      rw [hesc] at hlen1
      simp at hlen1
    have heq : processBackspace st =
        { st with
          lines := st.lines.set st.cursorY.toNat
            (line.take (st.cursorX - 2) ++ line.drop st.cursorX)
          cursorX := st.cursorX - 2 } := by
      unfold processBackspace
      rw [hline]
      dsimp only
      rw [if_pos hx, if_pos hesc]
    refine ⟨heq, ?_⟩
    simp only [List.length_append, List.length_take, List.length_drop]
    omega
  · intro hx hy
    have hprevlt : (st.cursorY - 1).toNat < st.lines.length := by omega
    have hget : st.lines[(st.cursorY - 1).toNat]? =
        some (st.lines.getD (st.cursorY - 1).toNat []) := by
      rw [List.getElem?_eq_getElem hprevlt]
      rw [getD_eq_of_getElem? (List.getElem?_eq_getElem hprevlt)]
    have heq : processBackspace st =
        { st with
          cursorX := (st.lines.getD (st.cursorY - 1).toNat []).length
          lines := (st.lines.set (st.cursorY - 1).toNat
            (st.lines.getD (st.cursorY - 1).toNat [] ++ line)).eraseIdx st.cursorY.toNat
          cursorY := st.cursorY - 1 } := by
      unfold processBackspace
      rw [hline]
      dsimp only
      rw [if_neg (by omega), if_pos hy, hget]
    refine ⟨heq, ?_⟩
    rw [heq]
    show ((st.lines.set (st.cursorY - 1).toNat
      (st.lines.getD (st.cursorY - 1).toNat [] ++ line)).eraseIdx st.cursorY.toNat).length =
        st.lines.length - 1
    rw [List.length_eraseIdx_of_lt (by simpa using hb.2.1)]
    simp
  · intro hx hy
    unfold processBackspace
    rw [hline]
    dsimp only
    rw [if_neg (by omega), if_neg (by omega)]

/-- Witness for C6's amended theorem, case (i): deleting inside `"ab"` at
column 2 removes exactly the `'b'`. -/
theorem c6_deleteLeft_cases_witness :
    processBackspace ⟨3, [['a', 'b']], 0, 2⟩ = ⟨3, [['a']], 0, 1⟩ := by
  have h := ((c6_deleteLeft_cases ⟨3, [['a', 'b']], 0, 2⟩ ['a', 'b']
    (by decide) (by decide)).1 (by decide) (by decide)).1
  rw [h]
  decide

/-- C6 counterexample to the literal claim: with the line `\\` (an escaped
backslash) and the caret at column 2, one `processBackspace` removes BOTH
characters and sets the column to 0 — not exactly one character with the
column decremented to 1 as the claim states for every buffer state. -/
theorem c6_counterexample :
    processBackspace ⟨3, [['\\', '\\']], 0, 2⟩ = ⟨3, [[]], 0, 0⟩ ∧
      (processBackspace ⟨3, [['\\', '\\']], 0, 2⟩).cursorX ≠ 1 ∧
      (processBackspace ⟨3, [['\\', '\\']], 0, 2⟩).lines ≠ [['\\']] := by
  decide

theorem tapBestPos_hit (width : List Char → Nat) (x : Int) (line : List Char) :
    ∀ (k i : Nat), line.length - i ≤ k → i ≤ line.length →
      tapBestPos width x line i = line.length ∨
        (tapBestPos width x line i < line.length ∧
          2 * x < 2 * (width (line.take (tapBestPos width x line i)) : Int) +
            (width ((line.drop (tapBestPos width x line i)).take 1) : Int)) := by
  intro k
  induction k with
  | zero =>
    intro i hk hi
    rw [tapBestPos_eq]
    split
    · omega
    · left
      omega
  | succ k ih =>
    intro i hk hi
    rw [tapBestPos_eq]
    split
    · rename_i hlt
      split
      · rename_i hP
        right
        exact ⟨hlt, hP⟩
      · exact ih (i + 1) (by omega) (by omega)
    · left
      omega

theorem tapBestPos_not_hit (width : List Char → Nat) (x : Int) (line : List Char) :
    ∀ (k i : Nat), line.length - i ≤ k →
      ∀ j, i ≤ j → j < tapBestPos width x line i →
        ¬ (2 * x < 2 * (width (line.take j) : Int) + (width ((line.drop j).take 1) : Int)) := by
  intro k
  induction k with
  | zero =>
    intro i hk j hij hj
    rw [tapBestPos_eq] at hj
    split at hj
    · omega
    · omega
  | succ k ih =>
    intro i hk j hij hj
    rw [tapBestPos_eq] at hj
    split at hj
    · rename_i hlt
      split at hj
      · omega
      · rename_i hP
        by_cases hji : j = i
        · subst hji
          exact hP
        · exact ih (i + 1) (by omega) j (by omega) hj
    · omega

/-- C3 (amended): for a pointer tap resolving to row `r = ⌊y / lineHeight⌋`
within the buffer with line `line`, the caret moves to row `r` and to column
`b - 1` clamped at 0 (the source's `Math.max(0, bestPos - 1)` fine-tuning),
where `b` is the column the claim's rule computes: the first index `i` with
`x < width(line[0:i]) + width(line[i]) / 2` — embedded doubled as
`2x < 2·width(line[0:i]) + width(line[i])` — and `length(line)` when no such
index exists.  With 10-pixel characters on `"ab"`, taps at x = 4, 16, 25
resolve to columns 0, 1 and 1 (not 2). -/
theorem c3_tap_column (width : List Char → Nat) (lineH : Nat) (x y : Int) (st : TIState)
    (line : List Char)
    (h0 : 0 ≤ tapRow lineH y) (h1 : tapRow lineH y < (st.lines.length : Int))
    (h2 : st.lines[(tapRow lineH y).toNat]? = some line) :
    moveCursorToTouch width lineH x y st =
      { st with cursorY := tapRow lineH y, cursorX := tapBestPos width x line 0 - 1 } ∧
      (tapBestPos width x line 0 = line.length ∨
        (tapBestPos width x line 0 < line.length ∧
          2 * x < 2 * (width (line.take (tapBestPos width x line 0)) : Int) +
            (width ((line.drop (tapBestPos width x line 0)).take 1) : Int))) ∧
      (∀ j, j < tapBestPos width x line 0 →
        ¬ (2 * x < 2 * (width (line.take j) : Int) +
            (width ((line.drop j).take 1) : Int))) := by
  refine ⟨?_, ?_, ?_⟩
  · unfold moveCursorToTouch
    rw [if_pos h1, if_pos h0, h2]
  · exact tapBestPos_hit width x line line.length 0 (by omega) (by omega)
  · intro j hj
    exact tapBestPos_not_hit width x line line.length 0 (by omega) j (by omega) hj

/-- Witness for C3's amended theorem: tapping `"ab"` (10 pixels per
character) at `x = 25` in row 0 puts the caret at `(0, 1)`. -/
theorem c3_tap_column_witness :
    moveCursorToTouch (fun s => 10 * s.length) 36 25 0 ⟨5, [['a', 'b']], 0, 0⟩ =
      ⟨5, [['a', 'b']], 0, 1⟩ := by
  have h := (c3_tap_column (fun s => 10 * s.length) 36 25 0 ⟨5, [['a', 'b']], 0, 0⟩
    ['a', 'b'] (by decide) (by decide) (by decide)).1
  rw [h]
  have hb : tapBestPos (fun s => 10 * s.length) 25 ['a', 'b'] 0 = 2 := by
    rw [tapBestPos_eq]
    norm_num
    rw [tapBestPos_eq]
    norm_num
    rw [tapBestPos_eq]
    norm_num
  rw [hb]
  decide

/-- C3 counterexample to the literal claim: the claim's examples say a tap at
`x = 25` on the 10-pixels-per-character line `"ab"` resolves to column 2, but
the code's final `Math.max(0, bestPos - 1)` adjustment yields column 1. -/
theorem c3_counterexample :
    (moveCursorToTouch (fun s => 10 * s.length) 36 25 0 ⟨5, [['a', 'b']], 0, 0⟩).cursorX = 1 ∧
      (1 : Nat) ≠ 2 := by
  refine ⟨?_, by decide⟩
  unfold moveCursorToTouch
  rw [if_pos (by decide), if_pos (by decide)]
  have h2 : ((⟨5, [['a', 'b']], 0, 0⟩ : TIState).lines[(tapRow 36 0).toNat]?) =
      some ['a', 'b'] := by decide
  rw [h2]
  have hb : tapBestPos (fun s => 10 * s.length) 25 ['a', 'b'] 0 = 2 := by
    rw [tapBestPos_eq]
    norm_num
    rw [tapBestPos_eq]
    norm_num
    rw [tapBestPos_eq]
    norm_num
  dsimp only
  rw [hb]

/-- C5 (amended): the keydown handler resets the reconciler baseline
(`_lastInputValue`) to empty and clears the external accumulator (the element
value) for the four arrow keys and Enter, so a following reconciliation pass
diffs against an empty baseline and replays the whole observed value; for
Backspace, however, it instead sets `_lastInputValue` to the accumulator's
current value and leaves the accumulator unchanged. -/
theorem c5_keydown_baseline (width : List Char → Nat) (maxW : Nat) (ks : KState)
    (current : List Char) :
    ((handleKeyDown ks Key.arrowLeft).last = [] ∧
      (handleKeyDown ks Key.arrowLeft).elemVal = [] ∧
      (handleKeyDown ks Key.arrowLeft).ti = moveCursorLeft ks.ti) ∧
    ((handleKeyDown ks Key.arrowRight).last = [] ∧
      (handleKeyDown ks Key.arrowRight).elemVal = [] ∧
      (handleKeyDown ks Key.arrowRight).ti = moveCursorRight ks.ti) ∧
    ((handleKeyDown ks Key.arrowUp).last = [] ∧
      (handleKeyDown ks Key.arrowUp).elemVal = [] ∧
      (handleKeyDown ks Key.arrowUp).ti = moveCursorUp ks.ti) ∧
    ((handleKeyDown ks Key.arrowDown).last = [] ∧
      (handleKeyDown ks Key.arrowDown).elemVal = [] ∧
      (handleKeyDown ks Key.arrowDown).ti = moveCursorDown ks.ti) ∧
    ((handleKeyDown ks Key.enter).last = [] ∧
      (handleKeyDown ks Key.enter).elemVal = [] ∧
      (handleKeyDown ks Key.enter).ti = processNewLine ks.ti) ∧
    ((handleKeyDown ks Key.backKey).last = ks.elemVal ∧
      (handleKeyDown ks Key.backKey).elemVal = ks.elemVal ∧
      (handleKeyDown ks Key.backKey).ti = processBackspace ks.ti) ∧
    (processInputDifference width maxW
        ⟨(handleKeyDown ks Key.arrowLeft).ti, (handleKeyDown ks Key.arrowLeft).last⟩
        current).ti =
      insertText width maxW current (moveCursorLeft ks.ti) := by
  refine ⟨⟨rfl, rfl, rfl⟩, ⟨rfl, rfl, rfl⟩, ⟨rfl, rfl, rfl⟩, ⟨rfl, rfl, rfl⟩,
    ⟨rfl, rfl, rfl⟩, ⟨rfl, rfl, rfl⟩, ?_⟩
  cases current with
  | nil => rfl
  | cons c cs => simp [processInputDifference, handleKeyDown]

/-- C5 counterexample to the literal claim: a Backspace keydown while the
accumulator holds `"ab"` leaves the accumulator as `"ab"` and sets the
last-observed string to `"ab"` — neither is reset to the empty string. -/
theorem c5_counterexample :
    (handleKeyDown ⟨initState 3, [], ['a', 'b']⟩ Key.backKey).last = ['a', 'b'] ∧
      (handleKeyDown ⟨initState 3, [], ['a', 'b']⟩ Key.backKey).elemVal = ['a', 'b'] ∧
      ¬ ((handleKeyDown ⟨initState 3, [], ['a', 'b']⟩ Key.backKey).last = [] ∧
        (handleKeyDown ⟨initState 3, [], ['a', 'b']⟩ Key.backKey).elemVal = []) := by
  decide

/-- C2 (amended): a reconciliation pass with previous observed string `p` and
current observed string `c` applies each character of the suffix
`c[len(p):]` — including any `\n` characters, which are inserted literally
through `processChar` and NOT turned into line splits — in order through the
width-constrained insert when `len(c) > len(p)`; calls `processBackspace`
exactly `len(p) - len(c)` times when `len(c) < len(p)`; and leaves the buffer
untouched when the lengths are equal.  The observation sequence
`"" → "a" → "ab" → "a" → ""` performs exactly 2 insertions and 2 deletions
and ends with full text `""`. -/
theorem c2_reconciler (width : List Char → Nat) (maxW : Nat)
    (h1 : width ['a'] ≤ maxW) (h2 : width ['a', 'b'] ≤ maxW) :
    (inputText (runReconcile width maxW ⟨initState 3, []⟩
        [['a'], ['a', 'b'], ['a'], []]).ti = [] ∧
      runCounts 0 [1, 2, 1, 0] = (2, 2)) ∧
    (∀ (rs : RState) (current : List Char), rs.last.length < current.length →
      processInputDifference width maxW rs current =
        ⟨insertText width maxW (current.drop rs.last.length) rs.ti, current⟩ ∧
      (current.drop rs.last.length).length = current.length - rs.last.length) ∧
    (∀ (rs : RState) (current : List Char), current.length < rs.last.length →
      processInputDifference width maxW rs current =
        ⟨Nat.iterate processBackspace (rs.last.length - current.length) rs.ti, current⟩) ∧
    (∀ (rs : RState) (current : List Char), current.length = rs.last.length →
      (processInputDifference width maxW rs current).ti = rs.ti ∧
      (processInputDifference width maxW rs current).last = current) := by
  have hg0 : getLine (initState 3) = some [] := by decide
  have hesc1 : escapeChar 'a' = ['a'] := by decide
  have hesc2 : escapeChar 'b' = ['b'] := by decide
  have hins1 : insertText width maxW ['a'] (initState 3) = ⟨3, [['a']], 0, 1⟩ := by
    rw [insertText, List.foldl_cons, List.foldl_nil, processChar_eq, hg0]
    dsimp only
    rw [hesc1]
    simp only [List.take_nil, List.drop_nil, List.nil_append, List.append_nil]
    rw [if_neg (Nat.not_lt.mpr h1)]
    decide
  have hg1 : getLine ⟨3, [['a']], 0, 1⟩ = some ['a'] := by decide
  have hins2 : insertText width maxW ['b'] ⟨3, [['a']], 0, 1⟩ = ⟨3, [['a', 'b']], 0, 2⟩ := by
    rw [insertText, List.foldl_cons, List.foldl_nil, processChar_eq, hg1]
    dsimp only
    rw [hesc2]
    have hpot : List.take (⟨3, [['a']], 0, 1⟩ : TIState).cursorX ['a'] ++ ['b'] ++
        List.drop (⟨3, [['a']], 0, 1⟩ : TIState).cursorX ['a'] = ['a', 'b'] := by decide
    rw [hpot, if_neg (Nat.not_lt.mpr h2)]
    decide
  have hp1 : processInputDifference width maxW ⟨initState 3, []⟩ ['a'] =
      ⟨insertText width maxW ['a'] (initState 3), ['a']⟩ := rfl
  have hp2 : processInputDifference width maxW ⟨⟨3, [['a']], 0, 1⟩, ['a']⟩ ['a', 'b'] =
      ⟨insertText width maxW ['b'] ⟨3, [['a']], 0, 1⟩, ['a', 'b']⟩ := rfl
  have hp3 : processInputDifference width maxW ⟨⟨3, [['a', 'b']], 0, 2⟩, ['a', 'b']⟩ ['a'] =
      ⟨⟨3, [['a']], 0, 1⟩, ['a']⟩ := rfl
  have hp4 : processInputDifference width maxW ⟨⟨3, [['a']], 0, 1⟩, ['a']⟩ [] =
      ⟨⟨3, [[]], 0, 0⟩, []⟩ := rfl
  refine ⟨⟨?_, by decide⟩, ?_, ?_, ?_⟩
  · show inputText (processInputDifference width maxW (processInputDifference width maxW
      (processInputDifference width maxW (processInputDifference width maxW
        ⟨initState 3, []⟩ ['a']) ['a', 'b']) ['a']) []).ti = []
    rw [hp1, hins1, hp2, hins2, hp3, hp4]
    decide
  · intro rs current h
    refine ⟨?_, by simp⟩
    unfold processInputDifference
    rw [if_pos h]
  · intro rs current h
    unfold processInputDifference
    rw [if_neg (by omega), if_pos h]
  · intro rs current h
    unfold processInputDifference
    rw [if_neg (by omega), if_neg (by omega)]
    exact ⟨rfl, rfl⟩

/-- Witness for C2's amended theorem: the scenario run with 1-pixel-wide
characters and 100 pixels available. -/
theorem c2_reconciler_witness :
    inputText (runReconcile (fun s => s.length) 100 ⟨initState 3, []⟩
        [['a'], ['a', 'b'], ['a'], []]).ti = [] ∧
      runCounts 0 [1, 2, 1, 0] = (2, 2) :=
  (c2_reconciler (fun s => s.length) 100 (by decide) (by decide)).1

/-- C2 counterexample to the literal claim: a reconciliation pass whose
appended suffix is the single character `\n` inserts the newline literally
into the current line through `processChar` — the buffer becomes the one line
`"\n"` — whereas applying it via line splitting (`processNewLine`) would
produce the two lines `"", ""`. -/
theorem c2_counterexample :
    (processInputDifference (fun s => s.length) 100 ⟨initState 3, []⟩ ['\n']).ti.lines =
      [['\n']] ∧
      (processNewLine (initState 3)).lines = [[], []] ∧
      ([['\n']] : List (List Char)) ≠ [[], []] := by
  refine ⟨?_, by decide, by decide⟩
  have hg0 : getLine (initState 3) = some [] := by decide
  have h : processInputDifference (fun s : List Char => s.length) 100 ⟨initState 3, []⟩ ['\n'] =
      ⟨insertText (fun s => s.length) 100 ['\n'] (initState 3), ['\n']⟩ := rfl
  rw [h]
  have hins : insertText (fun s : List Char => s.length) 100 ['\n'] (initState 3) =
      ⟨3, [['\n']], 0, 1⟩ := by
    rw [insertText, List.foldl_cons, List.foldl_nil, processChar_eq, hg0]
    dsimp only
    rw [if_neg (by decide)]
    decide
  rw [hins]
